/-
Verification of the duma download engine's chunk planning, resume
reconciliation, aggregator accounting, retry handling, state-log parsing
and file-handle semantics, as shallow Lean embeddings of the Rust sources
(`src/core.rs`, `src/download.rs`, `src/utils.rs`).

Machine integers (`u64`) are modelled as `Nat`; places where u64
subtraction may wrap are modelled explicitly (`u64Sub`).
-/
import Mathlib

namespace Duma

/-! ### Chunk planner: `HttpDownload::get_chunk_sizes` (src/core.rs:299-317)

```rust
fn get_chunk_sizes(&self, ct_len: u64) -> Vec<(u64, u64)> {
    let chunk_size = 512_000;
    let no_of_chunks = ct_len / chunk_size;
    let mut sizes = Vec::new();
    for chunk in 0..no_of_chunks {
        let bound = if chunk == no_of_chunks - 1 {
            ct_len
        } else {
            ((chunk + 1) * chunk_size) - 1
        };
        sizes.push((chunk * chunk_size, bound));
    }
    if sizes.is_empty() {
        sizes.push((0, ct_len));
    }
    sizes
}
```

`get_chunk_sizes_gen` takes the (in the source, hard-coded) chunk size as a
parameter; `get_chunk_sizes` fixes it to 512 000 exactly as the source does.
The `for`-loop pushing one pair per `chunk in 0..no_of_chunks` is embedded
as a `map` over `List.range no_of_chunks`. -/

def get_chunk_sizes_gen (chunk_size ct_len : Nat) : List (Nat × Nat) :=
  let no_of_chunks := ct_len / chunk_size
  let sizes := (List.range no_of_chunks).map (fun chunk =>
    (chunk * chunk_size,
      if chunk = no_of_chunks - 1 then ct_len else (chunk + 1) * chunk_size - 1))
  if sizes.isEmpty then [(0, ct_len)] else sizes

def get_chunk_sizes (ct_len : Nat) : List (Nat × Nat) :=
  get_chunk_sizes_gen 512000 ct_len

/-- A byte `b` lies in one of the inclusive-bound chunks of a plan. -/
def coveredChunk (chunks : List (Nat × Nat)) (b : Nat) : Prop :=
  ∃ c ∈ chunks, c.1 ≤ b ∧ b ≤ c.2

instance (chunks : List (Nat × Nat)) (b : Nat) : Decidable (coveredChunk chunks b) := by
  unfold coveredChunk; infer_instance

lemma get_chunk_sizes_gen_of_pos {cs ct : Nat} (hn : ct / cs ≠ 0) :
    get_chunk_sizes_gen cs ct = (List.range (ct / cs)).map (fun chunk =>
      (chunk * cs, if chunk = ct / cs - 1 then ct else (chunk + 1) * cs - 1)) := by
  unfold get_chunk_sizes_gen
  rw [if_neg]
  simp [List.isEmpty_iff, hn]

lemma get_chunk_sizes_gen_of_zero {cs ct : Nat} (hn : ct / cs = 0) :
    get_chunk_sizes_gen cs ct = [(0, ct)] := by
  unfold get_chunk_sizes_gen
  rw [if_pos]
  simp [hn]

/-- C1 (amended). For every `total_size` and `chunk_size`, the fresh-download
plan of `HttpDownload::get_chunk_sizes` consists of inclusive-bound chunks that
are pairwise non-overlapping (each chunk ends strictly before the next starts),
whose union is exactly the inclusive byte range `[0, total_size]` — one byte
more than the claimed `[0, total_size)`, because the last chunk's upper bound
is `total_size` itself — and whose count is `max (total_size / chunk_size) 1`
(floor division), not `ceil (total_size / chunk_size)`. -/
theorem chunk_plan_disjoint_cover_count (ct cs : Nat) :
    List.Pairwise (fun a b => a.2 < b.1) (get_chunk_sizes_gen cs ct)
    ∧ (∀ b : Nat, coveredChunk (get_chunk_sizes_gen cs ct) b ↔ b ≤ ct)
    ∧ (get_chunk_sizes_gen cs ct).length = max (ct / cs) 1 := by
  by_cases hn : ct / cs = 0
  · rw [get_chunk_sizes_gen_of_zero hn]
    refine ⟨by simp, fun b => ?_, by rw [hn]; rfl⟩
    simp [coveredChunk]
  · rw [get_chunk_sizes_gen_of_pos hn]
    have hcs : 0 < cs := by
      rcases Nat.eq_zero_or_pos cs with h | h
      · exact absurd (by simp [h]) hn
      · exact h
    have hn' : 0 < ct / cs := Nat.pos_of_ne_zero hn
    set n := ct / cs with hndef
    have hnct : n * cs ≤ ct := Nat.div_mul_le_self ct cs
    refine ⟨?_, fun b => ⟨?_, ?_⟩, ?_⟩
    · refine List.pairwise_map.mpr ((List.pairwise_lt_range n).imp_of_mem ?_)
      intro i j hi hj hij
      simp only [List.mem_range] at hi hj
      have hine : i ≠ n - 1 := by omega
      simp only [if_neg hine]
      have h1 : (i + 1) * cs ≤ j * cs := Nat.mul_le_mul_right cs (by omega)
      have h2 : 0 < (i + 1) * cs := by positivity
      omega
    · rintro ⟨c, hc, h1, h2⟩
      obtain ⟨k, hk, rfl⟩ := List.mem_map.mp hc
      rw [List.mem_range] at hk
      by_cases hk' : k = n - 1
      · simpa [hk'] using h2
      · have h3 : (k + 1) * cs ≤ ct :=
          le_trans (Nat.mul_le_mul_right cs (by omega)) hnct
        simp only [if_neg hk'] at h2
        omega
    · intro hb
      refine ⟨_, List.mem_map_of_mem _ (List.mem_range.mpr
        (show min (b / cs) (n - 1) < n by omega)), ?_, ?_⟩
      · have h1 : min (b / cs) (n - 1) * cs ≤ b / cs * cs :=
          Nat.mul_le_mul_right cs (by omega)
        exact le_trans h1 (Nat.div_mul_le_self b cs)
      · by_cases hk' : min (b / cs) (n - 1) = n - 1
        · simpa [hk'] using hb
        · have hkb : min (b / cs) (n - 1) = b / cs := by omega
          simp only [if_neg hk']
          have h2 : b < (min (b / cs) (n - 1) + 1) * cs := by
            rw [hkb]
            exact (Nat.div_lt_iff_lt_mul hcs).mp (by omega)
          have h3 : 0 < (min (b / cs) (n - 1) + 1) * cs := by positivity
          omega
    · simp only [List.length_map, List.length_range]
      omega

/-- C1 (counterexample). At `total_size = 1000000` (the source hard-codes
`chunk_size = 512000`), the fresh plan is the single chunk `(0, 1000000)`:
its chunk count `1` is not `ceil (1000000 / 512000) = 2`, and it covers byte
`1000000`, which lies outside `[0, 1000000)`. -/
theorem chunk_plan_claim_counterexample :
    get_chunk_sizes 1000000 = [(0, 1000000)]
    ∧ (get_chunk_sizes 1000000).length ≠ (1000000 + 512000 - 1) / 512000
    ∧ coveredChunk (get_chunk_sizes 1000000) 1000000 := by
  refine ⟨by decide, by decide, by decide⟩

/-- C2 (counterexample). For `total_size = 1000000` and the hard-coded
`chunk_size = 512000`, the planner does not return the two chunks
`(0, 511999)`, `(512000, 999999)` asserted by the claim. -/
theorem chunk_plan_concrete_counterexample :
    get_chunk_sizes 1000000 ≠ [(0, 511999), (512000, 999999)] := by
  decide

/-- C2 (amended). For `total_size = 1000000` and `chunk_size = 512000`,
`HttpDownload::get_chunk_sizes` returns exactly one chunk `(0, 1000000)`:
`1000000 / 512000 = 1` under floor division, and the single (last) chunk's
upper bound is `ct_len` itself. -/
theorem chunk_plan_concrete :
    get_chunk_sizes 1000000 = [(0, 1000000)] := by
  decide

/-! ### State-log parsing and resume planning (src/download.rs:39-74,122-143)

```rust
fn get_resume_chunk_offsets(fname: &str, ct_len: u64, chunk_size: u64)
    -> Fallible<Vec<(u64, u64)>> {
    ...
    let mut downloaded = vec![];
    for line in buf.lines() {
        let l = line?;
        let l = l.split(':').collect::<Vec<_>>();
        let n = (l[0].parse::<u64>()?, l[1].parse::<u64>()?);
        downloaded.push(n);
    }
    downloaded.sort_by_key(|a| a.1);
    let mut chunks = vec![];
    let mut i: u64 = 0;
    for (bc, offset) in downloaded {
        if i == offset {
            i = offset + bc;
        } else {
            chunks.push((i, offset - 1));
            i = offset + bc;
        }
    }
    while (ct_len - i) > chunk_size {
        chunks.push((i, i + chunk_size - 1));
        i += chunk_size;
    }
    chunks.push((i, ct_len));
    Ok(chunks)
}
```

A state-log file is modelled as the list of lines its reader yields, each line
a list of characters (without the terminating newline, exactly as
`BufRead::lines` yields them, including a final unterminated line). -/

def digitsToNat (s : List Char) : Nat :=
  s.foldl (fun n c => n * 10 + (c.toNat - 48)) 0

/-- Rust `str::parse::<u64>`: an optional leading `+`, then one or more ASCII
digits, and the value must fit in `u64`; anything else is an `Err`. -/
def parseU64 (s : List Char) : Option Nat :=
  let digits := match s with
    | c :: rest => if c = '+' then rest else s
    | [] => []
  if digits ≠ [] ∧ digits.all Char.isDigit ∧ digitsToNat digits < 2 ^ 64 then
    some (digitsToNat digits)
  else
    none

/-- Rust `str::split(':')`: splitting the empty string yields `[""]`. -/
def splitOnColon : List Char → List (List Char)
  | [] => [[]]
  | c :: rest =>
    let r := splitOnColon rest
    if c = ':' then [] :: r
    else
      match r with
      | [] => [[c]]
      | h :: t => (c :: h) :: t

/-- One line of the state file as read by `get_resume_chunk_offsets`
(src/download.rs:48-53): split on `:`, parse piece 0 and piece 1 as `u64`
into a `(byte_count, offset)` record. In the source a missing second piece is
an out-of-bounds index (a panic) and a bad number is an `Err` propagated by
`?`; both non-success outcomes are modelled as `none`. -/
def parseResumeLine (s : List Char) : Option (Nat × Nat) :=
  match splitOnColon s with
  | p0 :: p1 :: _ => do
    let a ← parseU64 p0
    let b ← parseU64 p1
    pure (a, b)
  | _ => none

/-- `downloaded.sort_by_key(|a| a.1)` (src/download.rs:54): stable sort of the
records on their second component, the start offset (Rust tuple field `.1`). -/
def sortByOffset (l : List (Nat × Nat)) : List (Nat × Nat) :=
  List.insertionSort (fun a b => a.2 ≤ b.2) l

/-- The gap-accumulation loop of `get_resume_chunk_offsets`
(src/download.rs:57-65): `i` is the coverage cursor; a sorted record
`(bc, offset)` either extends the covered prefix (`i == offset`) or first
contributes the gap chunk `(i, offset - 1)`; either way the cursor becomes
`offset + bc`. Returns the gap chunks together with the final cursor. -/
def mergeGaps : Nat → List (Nat × Nat) → List (Nat × Nat) × Nat
  | i, [] => ([], i)
  | i, (bc, offset) :: rest =>
    if i = offset then mergeGaps (offset + bc) rest
    else
      let r := mergeGaps (offset + bc) rest
      ((i, offset - 1) :: r.1, r.2)

/-- The tail-splitting loop of `get_resume_chunk_offsets`
(src/download.rs:67-71): `while (ct_len - i) > chunk_size` push
`(i, i + chunk_size - 1)` and advance `i` by `chunk_size`; finally push
`(i, ct_len)`. The loop is written with explicit fuel; `ct_len - i` is always
enough fuel, because every iteration advances `i` by `chunk_size ≥ 1` (the
sole call site passes `chunk_size = 512000`), and when the fuel runs out the
guard is false anyway, so the same final push happens. -/
def tailChunksF : Nat → Nat → Nat → Nat → List (Nat × Nat)
  | 0, ct_len, _, i => [(i, ct_len)]
  | fuel + 1, ct_len, chunk_size, i =>
    if ct_len - i > chunk_size then
      (i, i + chunk_size - 1) :: tailChunksF fuel ct_len chunk_size (i + chunk_size)
    else
      [(i, ct_len)]

def tailChunks (ct_len chunk_size i : Nat) : List (Nat × Nat) :=
  tailChunksF (ct_len - i) ct_len chunk_size i

/-- The planning core of `get_resume_chunk_offsets` (src/download.rs:54-73),
after the lines have been parsed into `downloaded`. -/
def resume_chunks (downloaded : List (Nat × Nat)) (ct_len chunk_size : Nat) :
    List (Nat × Nat) :=
  let sorted := sortByOffset downloaded
  let m := mergeGaps 0 sorted
  m.1 ++ tailChunks ct_len chunk_size m.2

/-- The parsing loop of `get_resume_chunk_offsets` (src/download.rs:48-53):
parse each line in order into `downloaded`, propagating the first failure. -/
def parseLines : List (List Char) → Option (List (Nat × Nat))
  | [] => some []
  | l :: rest => do
    let n ← parseResumeLine l
    let ns ← parseLines rest
    pure (n :: ns)

/-- `get_resume_chunk_offsets` (src/download.rs:39-74): parse every line of
the `.st` file, then plan the remaining chunks. Any line that fails to parse
fails the whole read (`?` propagation / index panic), modelled as `none`. -/
def get_resume_chunk_offsets (lines : List (List Char))
    (ct_len chunk_size : Nat) : Option (List (Nat × Nat)) :=
  (parseLines lines).map (fun downloaded => resume_chunks downloaded ct_len chunk_size)

/-- The summation loop of `calc_bytes_on_disk` (src/download.rs:129-136):
for each line, parse the text before the first `:` as `u64`, propagating the
first failure. -/
def parseCounts : List (List Char) → Option (List Nat)
  | [] => some []
  | l :: rest => do
    let n ← parseU64 ((splitOnColon l).headD [])
    let ns ← parseCounts rest
    pure (n :: ns)

/-- The state-file branch of `calc_bytes_on_disk` (src/download.rs:126-137):
sum, over every line, the text before the first `:` parsed as `u64`; a parse
failure fails the whole computation (the `split(':').nth(0)` itself never
fails, since splitting always yields at least one piece). -/
def calc_bytes_on_disk (lines : List (List Char)) : Option Nat :=
  (parseCounts lines).map List.sum

/-- Byte `b` is recorded as completed by some record `(byte_count, offset)`
of the log: `offset ≤ b < offset + byte_count`. -/
def coveredRec (recs : List (Nat × Nat)) (b : Nat) : Prop :=
  ∃ r ∈ recs, r.2 ≤ b ∧ b < r.2 + r.1

instance (recs : List (Nat × Nat)) (b : Nat) : Decidable (coveredRec recs b) := by
  unfold coveredRec; infer_instance

lemma coveredChunk_nil (b : Nat) : ¬ coveredChunk [] b := by
  simp [coveredChunk]

lemma coveredChunk_cons {c : Nat × Nat} {chunks : List (Nat × Nat)} {b : Nat} :
    coveredChunk (c :: chunks) b ↔ (c.1 ≤ b ∧ b ≤ c.2) ∨ coveredChunk chunks b := by
  simp [coveredChunk]

lemma coveredChunk_append {l₁ l₂ : List (Nat × Nat)} {b : Nat} :
    coveredChunk (l₁ ++ l₂) b ↔ coveredChunk l₁ b ∨ coveredChunk l₂ b := by
  simp [coveredChunk, or_and_right, exists_or]

lemma coveredRec_cons {r : Nat × Nat} {recs : List (Nat × Nat)} {b : Nat} :
    coveredRec (r :: recs) b ↔ (r.2 ≤ b ∧ b < r.2 + r.1) ∨ coveredRec recs b := by
  simp [coveredRec]

lemma not_coveredRec_of_lt {recs : List (Nat × Nat)} {x b : Nat}
    (hx : ∀ r ∈ recs, x ≤ r.2) (hb : b < x) : ¬ coveredRec recs b := by
  rintro ⟨r, hr, h1, _⟩
  exact absurd (le_trans (hx r hr) h1) (by omega)

/-- Coverage of the tail-splitting loop: for a positive chunk size, the
chunks pushed starting from cursor `i` cover exactly the inclusive range
`[i, ct_len]`, for any amount of fuel. -/
lemma tailChunksF_covered {cs : Nat} (hcs : 0 < cs) :
    ∀ (fuel ct i b : Nat),
      coveredChunk (tailChunksF fuel ct cs i) b ↔ i ≤ b ∧ b ≤ ct := by
  intro fuel
  induction fuel with
  | zero =>
    intro ct i b
    simp [tailChunksF, coveredChunk_cons, coveredChunk_nil]
  | succ fuel ih =>
    intro ct i b
    rw [tailChunksF]
    by_cases h : ct - i > cs
    · rw [if_pos h, coveredChunk_cons, ih]
      constructor
      · rintro (⟨h1, h2⟩ | ⟨h1, h2⟩) <;> omega
      · rintro ⟨h1, h2⟩
        by_cases hb : b ≤ i + cs - 1
        · exact Or.inl ⟨h1, hb⟩
        · exact Or.inr ⟨by omega, h2⟩
    · rw [if_neg h]
      simp [coveredChunk_cons, coveredChunk_nil]

lemma tailChunks_covered {cs : Nat} (hcs : 0 < cs) (ct i b : Nat) :
    coveredChunk (tailChunks ct cs i) b ↔ i ≤ b ∧ b ≤ ct :=
  tailChunksF_covered hcs (ct - i) ct i b

/-- Specification of the gap-accumulation loop on a chain-sorted record list
(each record ends at or before the next starts) whose records all start at or
after the cursor `i`: the final cursor is at least `i`, bounds every record's
end, is either `i` or some record's end, and the produced gap chunks cover
exactly the bytes of `[i, final cursor)` not covered by any record. -/
lemma mergeGaps_spec :
    ∀ (l : List (Nat × Nat)) (i : Nat),
      List.Pairwise (fun a b => a.2 + a.1 ≤ b.2) l →
      (∀ r ∈ l, i ≤ r.2) →
      i ≤ (mergeGaps i l).2
      ∧ (∀ r ∈ l, r.2 + r.1 ≤ (mergeGaps i l).2)
      ∧ ((mergeGaps i l).2 = i ∨ ∃ r ∈ l, (mergeGaps i l).2 = r.2 + r.1)
      ∧ (∀ b, coveredChunk (mergeGaps i l).1 b ↔
          (i ≤ b ∧ b < (mergeGaps i l).2 ∧ ¬ coveredRec l b)) := by
  intro l
  induction l with
  | nil =>
    intro i _ _
    refine ⟨le_refl i, by simp, Or.inl rfl, fun b => ?_⟩
    simp [mergeGaps, coveredChunk_nil]
    omega
  | cons hd rest ih =>
    intro i hchain hge
    obtain ⟨bc, off⟩ := hd
    have hio : i ≤ off := hge (bc, off) (List.mem_cons_self _ _)
    have hrest_ge : ∀ r ∈ rest, off + bc ≤ r.2 := by
      intro r hr
      simpa using (List.pairwise_cons.mp hchain).1 r hr
    have hchain' : List.Pairwise (fun a b => a.2 + a.1 ≤ b.2) rest :=
      (List.pairwise_cons.mp hchain).2
    obtain ⟨ih1, ih2, ih3, ih4⟩ := ih (off + bc) hchain' hrest_ge
    by_cases hcase : i = off
    · have heq : mergeGaps i ((bc, off) :: rest) = mergeGaps (off + bc) rest := by
        simp [mergeGaps, hcase]
      rw [heq]
      refine ⟨by omega, ?_, ?_, fun b => ?_⟩
      · intro r hmem
        rcases List.mem_cons.mp hmem with rfl | hr
        · simpa using ih1
        · exact ih2 r hr
      · rcases ih3 with h | ⟨r, hr, h⟩
        · exact Or.inr ⟨(bc, off), List.mem_cons_self _ _, by simpa using h⟩
        · exact Or.inr ⟨r, List.mem_cons_of_mem _ hr, h⟩
      · rw [ih4 b, coveredRec_cons]
        subst hcase
        constructor
        · rintro ⟨h1, h2, h3⟩
          exact ⟨by omega, h2, by rintro (⟨ha, hb⟩ | hr) <;> [omega; exact h3 hr]⟩
        · rintro ⟨h1, h2, h3⟩
          push_neg at h3
          exact ⟨by omega, h2, h3.2⟩
    · have hlt : i < off := by omega
      have heq : mergeGaps i ((bc, off) :: rest) =
          ((i, off - 1) :: (mergeGaps (off + bc) rest).1,
            (mergeGaps (off + bc) rest).2) := by
        simp [mergeGaps, hcase]
      rw [heq]
      refine ⟨by simp; omega, ?_, ?_, fun b => ?_⟩
      · intro r hmem
        rcases List.mem_cons.mp hmem with rfl | hr
        · simpa using ih1
        · exact ih2 r hr
      · rcases ih3 with h | ⟨r, hr, h⟩
        · exact Or.inr ⟨(bc, off), List.mem_cons_self _ _, by simpa using h⟩
        · exact Or.inr ⟨r, List.mem_cons_of_mem _ hr, h⟩
      · simp only [coveredChunk_cons, ih4 b, coveredRec_cons]
        constructor
        · rintro (⟨h1, h2⟩ | ⟨h1, h2, h3⟩)
          · refine ⟨h1, by omega, ?_⟩
            rintro (⟨ha, hb⟩ | hr)
            · omega
            · exact not_coveredRec_of_lt hrest_ge (by omega) hr
          · exact ⟨by omega, h2, by rintro (⟨ha, hb⟩ | hr) <;> [omega; exact h3 hr]⟩
        · rintro ⟨h1, h2, h3⟩
          push_neg at h3
          by_cases hb : b < off
          · exact Or.inl ⟨h1, by omega⟩
          · refine Or.inr ⟨?_, h2, h3.2⟩
            simp only [not_lt] at hb
            have := h3.1
            omega

instance : IsTotal (Nat × Nat) (fun a b => a.2 ≤ b.2) :=
  ⟨fun a b => Nat.le_total a.2 b.2⟩

instance : IsTrans (Nat × Nat) (fun a b => a.2 ≤ b.2) :=
  ⟨fun _ _ _ h1 h2 => Nat.le_trans h1 h2⟩

/-- Records are disjoint when their half-open intervals
`[offset, offset + byte_count)` do not intersect. -/
def recDisj (a b : Nat × Nat) : Prop :=
  a.2 + a.1 ≤ b.2 ∨ b.2 + b.1 ≤ a.2

instance : DecidableRel recDisj := fun a b => by
  unfold recDisj; infer_instance

/-- Sorting pairwise-disjoint records of positive length by offset yields a
chain: each record ends at or before the next one starts. -/
lemma sortByOffset_chain {recs : List (Nat × Nat)}
    (hpos : ∀ r ∈ recs, 0 < r.1) (hdisj : recs.Pairwise recDisj) :
    List.Pairwise (fun a b => a.2 + a.1 ≤ b.2) (sortByOffset recs) := by
  have hperm : List.Perm (sortByOffset recs) recs :=
    List.perm_insertionSort (fun a b : Nat × Nat => a.2 ≤ b.2) recs
  have hsorted : List.Pairwise (fun a b : Nat × Nat => a.2 ≤ b.2)
      (sortByOffset recs) :=
    List.sorted_insertionSort (fun a b : Nat × Nat => a.2 ≤ b.2) recs
  have hdisj' : (sortByOffset recs).Pairwise recDisj :=
    (hperm.pairwise_iff (fun h => h.symm)).mpr hdisj
  have hpos' : ∀ r ∈ sortByOffset recs, 0 < r.1 :=
    fun r hr => hpos r (hperm.mem_iff.mp hr)
  refine (hsorted.and hdisj').imp_of_mem ?_
  rintro a b ha hb ⟨hle, hd⟩
  rcases hd with h | h
  · exact h
  · have := hpos' b hb
    omega

/-- Membership-only characterisation transfers `coveredRec` along the sort. -/
lemma coveredRec_sortByOffset {recs : List (Nat × Nat)} {b : Nat} :
    coveredRec (sortByOffset recs) b ↔ coveredRec recs b := by
  unfold coveredRec
  constructor <;> rintro ⟨r, hr, h⟩
  · exact ⟨r, (List.perm_insertionSort _ recs).mem_iff.mp hr, h⟩
  · exact ⟨r, (List.perm_insertionSort _ recs).mem_iff.mpr hr, h⟩

/-- C3 (as stated). For a well-formed state log — records of positive length,
pairwise non-overlapping, each lying inside `[0, total_size)` (so that the
`u64` subtraction `ct_len - i` in the source cannot underflow) — the plan of
`get_resume_chunk_offsets` covers the complement of the recorded bytes within
`[0, total_size)`: no planned chunk contains a recorded byte, and every
unrecorded byte below `total_size` lies in some planned chunk. -/
theorem resume_plan_complement (recs : List (Nat × Nat)) (ct cs : Nat)
    (hcs : 0 < cs)
    (hpos : ∀ r ∈ recs, 0 < r.1)
    (hdisj : recs.Pairwise recDisj)
    (_hbound : ∀ r ∈ recs, r.2 + r.1 ≤ ct) :
    (∀ b, coveredRec recs b → ¬ coveredChunk (resume_chunks recs ct cs) b)
    ∧ (∀ b, b < ct → ¬ coveredRec recs b →
        coveredChunk (resume_chunks recs ct cs) b) := by
  have hchain := sortByOffset_chain hpos hdisj
  have hge : ∀ r ∈ sortByOffset recs, 0 ≤ r.2 := fun r _ => Nat.zero_le _
  obtain ⟨h1, h2, _h3, h4⟩ := mergeGaps_spec (sortByOffset recs) 0 hchain hge
  constructor
  · intro b hb hcov
    have hbs : coveredRec (sortByOffset recs) b := coveredRec_sortByOffset.mpr hb
    rcases coveredChunk_append.mp hcov with hgap | htail
    · exact ((h4 b).mp hgap).2.2 hbs
    · obtain ⟨r, hr, hrb, hrb'⟩ := hbs
      have := h2 r hr
      have := (tailChunks_covered hcs ct (mergeGaps 0 (sortByOffset recs)).2 b).mp htail
      omega
  · intro b hbct hb
    have hbs : ¬ coveredRec (sortByOffset recs) b :=
      fun h => hb (coveredRec_sortByOffset.mp h)
    by_cases hfi : b < (mergeGaps 0 (sortByOffset recs)).2
    · exact coveredChunk_append.mpr (Or.inl ((h4 b).mpr ⟨Nat.zero_le b, hfi, hbs⟩))
    · refine coveredChunk_append.mpr (Or.inr ?_)
      exact (tailChunks_covered hcs ct _ b).mpr ⟨by omega, by omega⟩

/-- C3 (witness). The theorem applied to the concrete well-formed log
`[(100, 0), (200, 300)]` with `total_size = 1000`, `chunk_size = 512000`:
byte 50 is recorded as completed and is indeed not re-requested. -/
theorem resume_plan_complement_witness :
    ¬ coveredChunk (resume_chunks [(100, 0), (200, 300)] 1000 512000) 50 :=
  (resume_plan_complement [(100, 0), (200, 300)] 1000 512000
    (by decide) (by decide) (by decide) (by decide)).1 50 (by decide)

/-- C4 (counterexample). For the state log `"100:0"`, `"200:300"` and
`total_size = 1000` (`chunk_size = 512000`), the resume planner does not
return `(100, 299)` and `(500, 999)`. -/
theorem resume_concrete_counterexample :
    get_resume_chunk_offsets [['1', '0', '0', ':', '0'],
        ['2', '0', '0', ':', '3', '0', '0']] 1000 512000
      ≠ some [(100, 299), (500, 999)] := by
  decide

/-- C4 (amended). For the state log `"100:0"`, `"200:300"` and
`total_size = 1000` (`chunk_size = 512000`), the resume planner returns
exactly `(100, 299)` and `(500, 1000)`: the final pushed chunk's upper bound
is `ct_len` itself, not `ct_len - 1`. -/
theorem resume_concrete :
    get_resume_chunk_offsets [['1', '0', '0', ':', '0'],
        ['2', '0', '0', ':', '3', '0', '0']] 1000 512000
      = some [(100, 299), (500, 1000)] := by
  decide

/-- C7 (counterexample). For a state log whose final line is the torn write
`"12"` (no `:` separator, no offset field), `get_resume_chunk_offsets` fails
(in the source, indexing `l[1]` panics) instead of discarding the line, and
`calc_bytes_on_disk` counts the torn line's `12` bytes (it would report
`some 100` had the line been discarded). -/
theorem torn_line_counterexample :
    get_resume_chunk_offsets [['1', '0', '0', ':', '0'], ['1', '2']] 1000 512000
        = none
    ∧ calc_bytes_on_disk [['1', '0', '0', ':', '0'], ['1', '2']] = some 112
    ∧ calc_bytes_on_disk [['1', '0', '0', ':', '0'], ['1', '2']] ≠ some 100 := by
  refine ⟨by decide, by decide, by decide⟩

/-- C7 (amended). A trailing line on which `byte_count:offset` parsing fails
is not discarded: `get_resume_chunk_offsets` fails on the whole log (an index
panic or an `Err` propagated by `?`), and `calc_bytes_on_disk`, which only
parses the text before the first `:`, counts that prefix whenever it parses
as a `u64` instead of discarding the line. -/
theorem torn_line_not_discarded (lines : List (List Char)) (last : List Char)
    (ct cs : Nat) (hmal : parseResumeLine last = none) :
    get_resume_chunk_offsets (lines ++ [last]) ct cs = none
    ∧ (∀ k, parseU64 ((splitOnColon last).headD []) = some k →
        calc_bytes_on_disk (lines ++ [last]) =
          (calc_bytes_on_disk lines).map (fun n => n + k)) := by
  constructor
  · have h1 : ∀ ls, parseLines (ls ++ [last]) = none := by
      intro ls
      induction ls with
      | nil => simp [parseLines, hmal]
      | cons x rest ih =>
        cases hx : parseResumeLine x with
        | none => simp [parseLines, hx]
        | some n => simp [parseLines, hx, ih]
    simp [get_resume_chunk_offsets, h1 lines]
  · intro k hk
    have h2 : ∀ ls, parseCounts (ls ++ [last]) =
        (parseCounts ls).map (fun ns => ns ++ [k]) := by
      intro ls
      induction ls with
      | nil =>
        rw [List.headD_eq_head?_getD] at hk
        simp [parseCounts, hk]
      | cons x rest ih =>
        cases hx : parseU64 ((splitOnColon x).headD []) with
        | none =>
          rw [List.headD_eq_head?_getD] at hx
          simp [parseCounts, hx]
        | some n =>
          rw [List.headD_eq_head?_getD] at hx
          cases hr : parseCounts rest <;> simp [parseCounts, hx, ih, hr]
    cases hl : parseCounts lines with
    | none => simp [calc_bytes_on_disk, h2 lines, hl]
    | some counts => simp [calc_bytes_on_disk, h2 lines, hl]

/-- C7 (witness). The amended theorem applied to the log `"100:0"` with the
torn final line `"12"`: the 12 bytes of the torn line are counted, not
discarded. -/
theorem torn_line_not_discarded_witness :
    calc_bytes_on_disk [['1', '0', '0', ':', '0'], ['1', '2']] =
      (calc_bytes_on_disk [['1', '0', '0', ':', '0']]).map (fun n => n + 12) :=
  (torn_line_not_discarded [['1', '0', '0', ':', '0']] ['1', '2'] 1000 512000
    (by decide)).2 12 (by decide)

/-! ### Worker streams and the aggregator loop (src/core.rs:241-296, 348-387)

```rust
fn download_chunk(client, url, offsets: (u64, u64), sender, errors) {
    fn _download_chunk(..., start_offset: &mut u64) -> Fallible<()> {
        ...
        loop {
            let mut buf = vec![0; chunk_sz as usize];
            let byte_count = resp.read(&mut buf[..])?;
            buf.truncate(byte_count);
            if !buf.is_empty() {
                sender.send((byte_count as u64, *start_offset, buf.clone()))?;
                *start_offset += byte_count as u64;
            } else { break; }
        }
        Ok(())
    }
    let mut start_offset = offsets.0;
    let end_offset = offsets.1;
    match _download_chunk(client, url, offsets, sender, &mut start_offset) {
        Ok(_) => {}
        Err(_) => match errors.send((start_offset, end_offset)) { _ => {} },
    }
}
```

A worker for job `(s, e)` therefore emits data messages at strictly advancing
offsets, and on failure reports exactly the sub-range
`(first offset never sent, e)`. The aggregator (`concurrent_download`'s
receive loop) consumes data messages in an arbitrary interleaving and
re-submits each failure range as a new job. The transition system below
models one worker outcome becoming visible to the aggregator; `bs` is the
list of read sizes the worker delivered before stopping, constrained by the
transport guarantee that a ranged GET for `(s, e)` carries at most
`e + 1 - s` body bytes (exactly that many on success). -/

/-- Messages sent by `_download_chunk`'s read loop starting at offset `s`:
each read of `b` bytes sends `(b, cursor)` and advances the cursor by `b`. -/
def workerMsgs : Nat → List Nat → List (Nat × Nat)
  | _, [] => []
  | s, b :: rest => (b, s) :: workerMsgs (s + b) rest

/-- Half-open destination interval written by a data message
`(byte_count, offset)`. -/
def msgIv (m : Nat × Nat) : Nat × Nat := (m.2, m.2 + m.1)

/-- Half-open destination interval of a pending job `(start, end)` with
inclusive bounds. -/
def jobIv (j : Nat × Nat) : Nat × Nat := (j.1, j.2 + 1)

/-- Disjointness of half-open intervals `[lo, hi)`. -/
def ivDisj (a b : Nat × Nat) : Prop := a.2 ≤ b.1 ∨ b.2 ≤ a.1

lemma ivDisj_symm {a b : Nat × Nat} (h : ivDisj a b) : ivDisj b a := h.symm

lemma ivDisj_of_sub {J a b : Nat × Nat} (h1 : J.1 ≤ a.1) (h2 : a.2 ≤ J.2)
    (h : ivDisj J b) : ivDisj a b := by
  rcases h with h | h
  · exact Or.inl (le_trans h2 h)
  · exact Or.inr (le_trans h h1)

/-- Aggregator state: the data messages consumed so far and the pending
chunk jobs (already submitted to the pool or re-submitted after a failure). -/
structure AggState where
  counted : List (Nat × Nat)
  jobs : List (Nat × Nat)

/-- One worker outcome becoming visible to the aggregator's receive loop
(src/core.rs:267-294). A pending job `(s, e)` either: succeeds, delivering
reads `bs` with `s + sum bs = e + 1` (the ranged GET body is exactly
`e - s + 1` bytes); or fails part-way, delivering reads `bs` with
`s + sum bs ≤ e + 1`, and the failure message `(s + sum bs, e)` — the first
offset never sent, paired with the chunk end — is re-submitted as a new job.
The retry-budget check only decides whether the session aborts; it never
alters which bytes a submitted job covers. -/
inductive AggStep : AggState → AggState → Prop
  | success (c l₁ l₂ : List (Nat × Nat)) (s e : Nat) (bs : List Nat)
      (hsum : s + bs.sum = e + 1) :
      AggStep ⟨c, l₁ ++ (s, e) :: l₂⟩ ⟨c ++ workerMsgs s bs, l₁ ++ l₂⟩
  | failure (c l₁ l₂ : List (Nat × Nat)) (s e : Nat) (bs : List Nat)
      (hsum : s + bs.sum ≤ e + 1) :
      AggStep ⟨c, l₁ ++ (s, e) :: l₂⟩
        ⟨c ++ workerMsgs s bs, (l₁ ++ l₂) ++ [(s + bs.sum, e)]⟩

/-- All byte intervals a state owns: consumed messages and pending jobs. -/
def aggIvs (st : AggState) : List (Nat × Nat) :=
  st.counted.map msgIv ++ st.jobs.map jobIv

lemma workerMsgs_pairwise :
    ∀ (s : Nat) (bs : List Nat),
      List.Pairwise ivDisj ((workerMsgs s bs).map msgIv)
        ∧ ∀ iv ∈ (workerMsgs s bs).map msgIv, s ≤ iv.1 ∧ iv.2 ≤ s + bs.sum := by
  intro s bs
  induction bs generalizing s with
  | nil => simp [workerMsgs]
  | cons b rest ih =>
    obtain ⟨ih1, ih2⟩ := ih (s + b)
    rw [workerMsgs, List.map_cons]
    constructor
    · refine List.pairwise_cons.mpr ⟨?_, ih1⟩
      intro iv hiv
      exact Or.inl (by simpa [msgIv] using (ih2 iv hiv).1)
    · intro iv hiv
      rcases List.mem_cons.mp hiv with rfl | hiv
      · refine ⟨le_refl s, ?_⟩
        simp [msgIv, List.sum_cons]
      · obtain ⟨hh1, hh2⟩ := ih2 iv hiv
        refine ⟨by omega, ?_⟩
        simp only [List.sum_cons]
        omega

lemma pairwise_middle_extract {α : Type} {R : α → α → Prop}
    (hs : ∀ {x y : α}, R x y → R y x) {X Y : List α} {J : α}
    (h : List.Pairwise R (X ++ J :: Y)) :
    List.Pairwise R (X ++ Y) ∧ ∀ x ∈ X ++ Y, R J x := by
  rw [List.pairwise_append] at h
  obtain ⟨h1, h2, h3⟩ := h
  rw [List.pairwise_cons] at h2
  refine ⟨List.pairwise_append.mpr ⟨h1, h2.2, ?_⟩, ?_⟩
  · exact fun a ha b hb => h3 a ha b (List.mem_cons_of_mem _ hb)
  · intro x hx
    rcases List.mem_append.mp hx with hx | hx
    · exact hs (h3 x hx J (List.mem_cons_self _ _))
    · exact h2.1 x hx

lemma agg_extract
    (c l₁ l₂ : List (Nat × Nat)) (s e : Nat)
    (hinv : List.Pairwise ivDisj (aggIvs ⟨c, l₁ ++ (s, e) :: l₂⟩)) :
    List.Pairwise ivDisj
      (c.map msgIv ++ (l₁.map jobIv ++ l₂.map jobIv))
    ∧ ∀ x ∈ c.map msgIv ++ (l₁.map jobIv ++ l₂.map jobIv),
        ivDisj (jobIv (s, e)) x := by
  unfold aggIvs at hinv
  rw [List.map_append, List.map_cons, ← List.append_assoc] at hinv
  obtain ⟨h1, h2⟩ := pairwise_middle_extract ivDisj_symm hinv
  simp only [List.append_assoc] at h1 h2
  exact ⟨h1, h2⟩

lemma aggStep_preserves {st st2 : AggState} (h : AggStep st st2)
    (hinv : List.Pairwise ivDisj (aggIvs st)) :
    List.Pairwise ivDisj (aggIvs st2) := by
  cases h with
  | success c l₁ l₂ s e bs hsum =>
    obtain ⟨hW, hWb⟩ := workerMsgs_pairwise s bs
    obtain ⟨hold, hJ⟩ := agg_extract c l₁ l₂ s e hinv
    obtain ⟨hC, hAB, hCAB⟩ := List.pairwise_append.mp hold
    have hWsub : ∀ w ∈ (workerMsgs s bs).map msgIv, s ≤ w.1 ∧ w.2 ≤ e + 1 := by
      intro w hw
      obtain ⟨a1, a2⟩ := hWb w hw
      exact ⟨a1, by omega⟩
    unfold aggIvs
    simp only [List.map_append, List.append_assoc]
    refine List.pairwise_append.mpr ⟨hC, List.pairwise_append.mpr ⟨hW, hAB, ?_⟩, ?_⟩
    · intro w hw y hy
      exact ivDisj_of_sub (hWsub w hw).1 (hWsub w hw).2 (hJ y (List.mem_append_right _ hy))
    · intro x hx y hy
      rcases List.mem_append.mp hy with hw | hy2
      · exact ivDisj_symm (ivDisj_of_sub (hWsub y hw).1 (hWsub y hw).2
          (hJ x (List.mem_append_left _ hx)))
      · exact hCAB x hx y hy2
  | failure c l₁ l₂ s e bs hsum =>
    obtain ⟨hW, hWb⟩ := workerMsgs_pairwise s bs
    obtain ⟨hold, hJ⟩ := agg_extract c l₁ l₂ s e hinv
    obtain ⟨hC, hAB, hCAB⟩ := List.pairwise_append.mp hold
    obtain ⟨hA, hB, hABcross⟩ := List.pairwise_append.mp hAB
    have hWsub : ∀ w ∈ (workerMsgs s bs).map msgIv, s ≤ w.1 ∧ w.2 ≤ e + 1 := by
      intro w hw
      obtain ⟨a1, a2⟩ := hWb w hw
      exact ⟨a1, by omega⟩
    have hTsub1 : (jobIv (s, e)).1 ≤ (jobIv (s + bs.sum, e)).1 := by
      simp [jobIv]
    have hTsub2 : (jobIv (s + bs.sum, e)).2 ≤ (jobIv (s, e)).2 := by
      simp [jobIv]
    unfold aggIvs
    simp only [List.map_append, List.map_cons, List.map_nil, List.append_assoc]
    refine List.pairwise_append.mpr ⟨hC, ?_, ?_⟩
    · refine List.pairwise_append.mpr ⟨hW, ?_, ?_⟩
      · refine List.pairwise_append.mpr ⟨hA, ?_, ?_⟩
        · refine List.pairwise_append.mpr
            ⟨hB, List.pairwise_singleton _ _, ?_⟩
          intro b hb t ht
          rw [List.mem_singleton] at ht
          subst ht
          exact ivDisj_symm (ivDisj_of_sub hTsub1 hTsub2
            (hJ b (List.mem_append_right _ (List.mem_append_right _ hb))))
        · intro a ha y hy
          rcases List.mem_append.mp hy with hb | ht
          · exact hABcross a ha y hb
          · rw [List.mem_singleton] at ht
            subst ht
            exact ivDisj_symm (ivDisj_of_sub hTsub1 hTsub2
              (hJ a (List.mem_append_right _ (List.mem_append_left _ ha))))
      · intro w hw y hy
        rcases List.mem_append.mp hy with ha | hy2
        · exact ivDisj_of_sub (hWsub w hw).1 (hWsub w hw).2
            (hJ y (List.mem_append_right _ (List.mem_append_left _ ha)))
        · rcases List.mem_append.mp hy2 with hb | ht
          · exact ivDisj_of_sub (hWsub w hw).1 (hWsub w hw).2
              (hJ y (List.mem_append_right _ (List.mem_append_right _ hb)))
          · rw [List.mem_singleton] at ht
            subst ht
            exact Or.inl (by simpa [jobIv, msgIv] using (hWb w hw).2)
    · intro x hx y hy
      rcases List.mem_append.mp hy with hw | hy2
      · exact ivDisj_symm (ivDisj_of_sub (hWsub y hw).1 (hWsub y hw).2
          (hJ x (List.mem_append_left _ hx)))
      · rcases List.mem_append.mp hy2 with ha | hy3
        · exact hCAB x hx y (List.mem_append_left _ ha)
        · rcases List.mem_append.mp hy3 with hb | ht
          · exact hCAB x hx y (List.mem_append_right _ hb)
          · rw [List.mem_singleton] at ht
            subst ht
            exact ivDisj_symm (ivDisj_of_sub hTsub1 hTsub2
              (hJ x (List.mem_append_left _ hx)))

/-- C5. Throughout the aggregator loop of `concurrent_download`, starting
from any set of pending chunk jobs with pairwise-disjoint byte ranges, every
reachable state has pairwise-disjoint consumed-message byte ranges: no
destination byte offset is ever counted twice by `count += byte_count`,
because each worker's data messages advance monotonically within its chunk
and a failure message re-submits only the sub-range
`(first unsent offset, chunk_end)`. -/
theorem aggregator_no_double_count (init st : AggState)
    (hc : init.counted = [])
    (hj : List.Pairwise ivDisj (init.jobs.map jobIv))
    (hreach : Relation.ReflTransGen AggStep init st) :
    List.Pairwise ivDisj (st.counted.map msgIv) := by
  have hinv : List.Pairwise ivDisj (aggIvs st) := by
    induction hreach with
    | refl => simpa [aggIvs, hc] using hj
    | tail _hab hbc ih => exact aggStep_preserves hbc ih
  exact (List.pairwise_append.mp hinv).1

/-- C5 (witness). A one-chunk session `[(0, 9)]` whose worker delivers a
single 10-byte read: the consumed messages' ranges are pairwise disjoint. -/
theorem aggregator_no_double_count_witness :
    List.Pairwise ivDisj ((AggState.mk [(10, 0)] []).counted.map msgIv) :=
  aggregator_no_double_count ⟨[], [(0, 9)]⟩ ⟨[(10, 0)], []⟩ rfl (by simp)
    (Relation.ReflTransGen.single (AggStep.success [] [] [] 0 9 [10] (by decide)))

/-! ### Retry accounting (src/core.rs:277-293, src/download.rs:371-384)

```rust
match errors_rx.recv_timeout(Duration::from_micros(1)) {
    Err(_) => {}
    Ok(offsets) => {
        if self.retries > self.opts.max_retries {
            for hk in &self.hooks {
                hk.borrow_mut().on_max_retries();
            }
        }
        self.retries += 1;
        ... // re-submit `offsets` to the worker pool
    }
}
```

`DefaultEventsHandler::on_max_retries` flushes its buffers and calls
`::std::process::exit(0)` (src/download.rs:371-384), so once it has been
invoked nothing in the loop executes again; a state with `fired = true` is
terminal. `max_retries` is an `i32` (`Config.max_retries`), modelled as
`Int`; `retries` starts at `0` (`HttpDownload::new`). -/

structure RetryState where
  retries : Int
  attempts : Nat
  fired : Bool
deriving DecidableEq

/-- Processing one failure message of an always-failing chunk: check the
budget before incrementing; firing `on_max_retries` exits the process
(terminal); otherwise increment `retries` and re-submit (one more fetch
attempt). -/
def retryStep (max_retries : Int) (st : RetryState) : RetryState :=
  if st.fired then st
  else if st.retries > max_retries then { st with fired := true }
  else { retries := st.retries + 1, attempts := st.attempts + 1, fired := false }

/-- The chunk has been submitted once (one fetch attempt), no failures
processed, `retries = 0`. -/
def initRetry : RetryState := ⟨0, 1, false⟩

/-- C6 (counterexample). With `max_retries = 0`, `on_max_retries` fires while
processing the second failure, after 2 total fetch attempts — not the
`max_retries + 1 = 1` attempts the claim asserts. -/
theorem retry_attempts_counterexample :
    ((retryStep 0)^[2] initRetry).fired = true
    ∧ ((retryStep 0)^[2] initRetry).attempts = 2
    ∧ ((retryStep 0)^[2] initRetry).attempts ≠ 0 + 1 := by
  refine ⟨by decide, by decide, by decide⟩

lemma retry_run (m : Nat) :
    ∀ k, k ≤ m + 1 →
      (retryStep (m : Int))^[k] initRetry = ⟨(k : Int), 1 + k, false⟩ := by
  intro k
  induction k with
  | zero => intro _; simp [initRetry]
  | succ k ih =>
    intro hk
    rw [Function.iterate_succ_apply', ih (by omega)]
    have h1 : ¬((k : Int) > (m : Int)) := by
      rw [not_lt]
      exact_mod_cast Nat.le_of_lt_succ (by omega)
    simp only [retryStep, Bool.false_eq_true, if_false, h1, if_neg h1]
    simp
    omega

lemma retry_final (m : Nat) :
    (retryStep (m : Int))^[m + 2] initRetry = ⟨(m : Int) + 1, m + 2, true⟩ := by
  have h : m + 2 = (m + 1) + 1 := rfl
  rw [h, Function.iterate_succ_apply', retry_run m (m + 1) (le_refl _)]
  have h1 : ((m + 1 : Nat) : Int) > (m : Int) := by exact_mod_cast Nat.lt_succ_self m
  simp only [retryStep, Bool.false_eq_true, if_false, if_pos h1]
  simp
  omega

/-- C6 (amended). If a submitted chunk always fails then exactly
`max_retries + 2` total fetch attempts occur before `on_max_retries` fires
(the budget check `retries > max_retries` happens before the increment, so
failures 1..max_retries+1 are each re-submitted and the (max_retries+2)-th
failure fires); and after `on_max_retries` is invoked the session is
terminal — the default handler exits the process — so no further chunk job
is ever re-submitted. -/
theorem retry_attempts (m : Nat) :
    ((retryStep (m : Int))^[m + 2] initRetry).fired = true
    ∧ ((retryStep (m : Int))^[m + 2] initRetry).attempts = m + 2
    ∧ (∀ k, k ≤ m + 1 → ((retryStep (m : Int))^[k] initRetry).fired = false)
    ∧ (∀ j, (retryStep (m : Int))^[m + 2 + j] initRetry
        = (retryStep (m : Int))^[m + 2] initRetry) := by
  refine ⟨by rw [retry_final], by rw [retry_final], ?_, ?_⟩
  · intro k hk
    rw [retry_run m k hk]
  · intro j
    induction j with
    | zero => rfl
    | succ j ih =>
      have h : m + 2 + (j + 1) = (m + 2 + j) + 1 := rfl
      rw [h, Function.iterate_succ_apply', ih, retry_final]
      simp [retryStep]

/-- C6 (witness). The amended theorem at the source's configured budget
`max_retries = 100` (src/download.rs:225): the fatal callback fires after
102 attempts and the state is frozen afterwards. -/
theorem retry_attempts_witness :
    ((retryStep ((100 : Nat) : Int))^[102] initRetry).attempts = 102
    ∧ ((retryStep ((100 : Nat) : Int))^[102] initRetry).fired = true
    ∧ ((retryStep ((100 : Nat) : Int))^[103] initRetry)
        = (retryStep ((100 : Nat) : Int))^[102] initRetry := by
  obtain ⟨h1, h2, _h3, h4⟩ := retry_attempts 100
  exact ⟨h2, h1, h4 1⟩

/-! ### Sidecar lifecycle (src/core.rs:168-220, src/download.rs:362-369)

`HttpDownload::download` ends with

```rust
if resp.status().is_success() {
    ... // concurrent_download / singlethread_download, `?`-propagated
} else {
    for hk in &self.hooks { hk.borrow_mut().on_failure_status(resp.status()); }
}
for hook in &self.hooks { hook.borrow_mut().on_finish(); }
Ok(())
```

and `DefaultEventsHandler::on_finish` unconditionally removes the `.st`
sidecar, swallowing any error. -/

/-- Filesystem abstraction: whether the `.st` sidecar file exists. -/
structure FsState where
  sidecar : Bool
deriving DecidableEq

/-- `DefaultEventsHandler::on_finish` (src/download.rs:362-369): removes the
sidecar unconditionally (`match fs::remove_file(...) { _ => {} }`). -/
def on_finish_fs (_fs : FsState) : FsState := ⟨false⟩

/-- Outcome of the transfer call inside `download`'s success branch. -/
inductive InnerOutcome
  | ok
  | err
  | exited
deriving DecidableEq

/-- The tail of `HttpDownload::download` (src/core.rs:199-219) as it affects
the sidecar. First component: `some true` if `download` returns `Ok` (the
`on_finish` loop ran), `some false` if an `Err` propagated out before the
`on_finish` loop, `none` if the process exited inside the transfer
(`on_max_retries`). Second component: the resulting filesystem state. -/
def download_flow (status_success : Bool) (inner : InnerOutcome)
    (fs : FsState) : Option Bool × FsState :=
  if status_success then
    match inner with
    | InnerOutcome.ok => (some true, on_finish_fs fs)
    | InnerOutcome.err => (some false, fs)
    | InnerOutcome.exited => (none, fs)
  else
    (some true, on_finish_fs fs)

/-- C8 (counterexample). A non-2xx response (`status_success = false`) with
the sidecar on disk: `download` completes `Ok` and the unconditional
`on_finish` loop deletes the sidecar — it is not left in place for the next
invocation, contrary to the claim. -/
theorem sidecar_counterexample :
    (download_flow false InnerOutcome.ok ⟨true⟩).1 = some true
    ∧ (download_flow false InnerOutcome.ok ⟨true⟩).2.sidecar = false := by
  refine ⟨by decide, by decide⟩

/-- C8 (amended). The sidecar is deleted exactly when `download` returns
`Ok` — which includes the non-2xx path, because the `on_finish` loop runs
unconditionally at the end of `download` — and it is left on disk exactly
when the download aborts: an `Err` propagates (skipping `on_finish`) or the
process exits inside the transfer via `on_max_retries`. -/
theorem sidecar_lifecycle (ss : Bool) (inner : InnerOutcome) (fs : FsState) :
    ((download_flow ss inner fs).1 = some true →
      (download_flow ss inner fs).2.sidecar = false)
    ∧ ((download_flow ss inner fs).1 ≠ some true →
      (download_flow ss inner fs).2 = fs) := by
  cases ss <;> cases inner <;> simp [download_flow, on_finish_fs]

/-- C8 (witness). The amended theorem at a concrete abort: a mid-transfer
`Err` with the sidecar present leaves the filesystem untouched. -/
theorem sidecar_lifecycle_witness :
    (download_flow true InnerOutcome.err ⟨true⟩).2 = (⟨true⟩ : FsState) :=
  (sidecar_lifecycle true InnerOutcome.err ⟨true⟩).2 (by decide)

/-! ### Destination file handle and the frame effect
(src/utils.rs:23-42, src/download.rs:266-275, 343-356)

```rust
pub fn get_file_handle(fname: &str, resume_download: bool, append: bool)
    -> io::Result<File> {
    if resume_download && Path::new(fname).exists() {
        if append {
            OpenOptions::new().append(true).open(fname)
        } else {
            OpenOptions::new().write(true).open(fname)
        }
    } else {
        OpenOptions::new().write(true).create(true).open(fname)
    }
}
```

No branch truncates, so a pre-existing file keeps its content; a missing
file is created empty. File content is modelled as a list of byte values. -/

/-- The initial content seen through the handle `get_file_handle` returns;
`existing` is the file's prior content (`none` if absent). Every branch of
the source opens without truncation, which the branch structure mirrors. -/
def get_file_handle (resume_download append : Bool)
    (existing : Option (List Nat)) : List Nat :=
  if resume_download ∧ existing.isSome then
    if append then existing.getD [] else existing.getD []
  else
    match existing with
    | some content => content
    | none => []

/-- `on_concurrent_content`'s seek-then-write (src/download.rs:343-356):
seek to `offset`, write all of `buf`; writing past the end extends the file
(gap bytes read back as zero). -/
def writeAt (f : List Nat) (offset : Nat) (buf : List Nat) : List Nat :=
  (List.range (max f.length (offset + buf.length))).map (fun i =>
    if offset ≤ i ∧ i < offset + buf.length then buf.getD (i - offset) 0
    else f.getD i 0)

/-- A whole download: the sequence of `(offset, buffer)` writes the
aggregator forwards, applied in order. -/
def applyWrites (f : List Nat) (ws : List (Nat × List Nat)) : List Nat :=
  ws.foldl (fun acc w => writeAt acc w.1 w.2) f

lemma writeAt_length (f : List Nat) (o : Nat) (b : List Nat) :
    (writeAt f o b).length = max f.length (o + b.length) := by
  simp [writeAt]

lemma writeAt_getD_outside (f : List Nat) (o : Nat) (b : List Nat) (i : Nat)
    (h : ¬(o ≤ i ∧ i < o + b.length)) :
    (writeAt f o b).getD i 0 = f.getD i 0 := by
  unfold writeAt
  rw [List.getD_eq_getElem?_getD, List.getElem?_map]
  by_cases hi : i < max f.length (o + b.length)
  · rw [List.getElem?_range hi]
    simp [h]
  · have h1 : (List.range (max f.length (o + b.length)))[i]? = none := by
      rw [List.getElem?_eq_none]
      simpa using Nat.le_of_not_lt hi
    rw [h1]
    have h2 : f.length ≤ i := by omega
    rw [List.getD_eq_getElem?_getD, List.getElem?_eq_none h2]
    rfl

/-- C9. For a fresh (non-resume) download over an existing destination file
`f`, the opened handle sees `f` un-truncated, and after any sequence of
seek-and-write operations every byte position of `f` not covered by any
write — in particular every position beyond the last written offset — still
holds its original value, and the file never shrinks below its original
length. -/
theorem fresh_open_preserves_tail (f : List Nat) (ws : List (Nat × List Nat))
    (i : Nat) (_hi : i < f.length)
    (hout : ∀ w ∈ ws, ¬(w.1 ≤ i ∧ i < w.1 + w.2.length)) :
    (applyWrites (get_file_handle false false (some f)) ws).getD i 0 = f.getD i 0
    ∧ f.length ≤ (applyWrites (get_file_handle false false (some f)) ws).length := by
  have h0 : get_file_handle false false (some f) = f := rfl
  rw [h0]
  clear h0 _hi
  induction ws generalizing f with
  | nil => exact ⟨rfl, le_refl _⟩
  | cons w ws ih =>
    have hw := hout w (List.mem_cons_self _ _)
    have hrest : ∀ x ∈ ws, ¬(x.1 ≤ i ∧ i < x.1 + x.2.length) :=
      fun x hx => hout x (List.mem_cons_of_mem _ hx)
    obtain ⟨ih1, ih2⟩ := ih (writeAt f w.1 w.2) hrest
    refine ⟨?_, ?_⟩
    · show (applyWrites (writeAt f w.1 w.2) ws).getD i 0 = f.getD i 0
      rw [ih1, writeAt_getD_outside f w.1 w.2 i hw]
    · show f.length ≤ (applyWrites (writeAt f w.1 w.2) ws).length
      refine le_trans ?_ ih2
      rw [writeAt_length]
      omega

/-- C9 (witness). A five-byte pre-existing file receiving a two-byte write at
offset 0: byte 4 keeps its original value and the length does not shrink. -/
theorem fresh_open_preserves_tail_witness :
    (applyWrites (get_file_handle false false (some [7, 7, 7, 7, 7]))
        [(0, [1, 2])]).getD 4 0 = [7, 7, 7, 7, 7].getD 4 0
    ∧ [7, 7, 7, 7, 7].length
        ≤ (applyWrites (get_file_handle false false (some [7, 7, 7, 7, 7]))
            [(0, [1, 2])]).length :=
  fresh_open_preserves_tail [7, 7, 7, 7, 7] [(0, [1, 2])] 4 (by decide)
    (by decide)

/-! ### Aggregator threshold arithmetic (src/core.rs:265-271)

```rust
let threshold = ct_len - self.opts.bytes_on_disk.unwrap_or(0);
let mut count = 0;
loop {
    if count == threshold { break; }
    let (byte_count, offset, buf) = data_rx.recv()?;
    count += byte_count;
    ...
}
```
-/

/-- Wrapping `u64` subtraction (for operands below `2 ^ 64`). -/
def u64Sub (a b : Nat) : Nat := (a + 2 ^ 64 - b) % 2 ^ 64

/-- `let threshold = ct_len - self.opts.bytes_on_disk.unwrap_or(0);`
(src/core.rs:265). -/
def threshold (ct_len : Nat) (bytes_on_disk : Option Nat) : Nat :=
  u64Sub ct_len (bytes_on_disk.getD 0)

/-- The counting skeleton of the receive loop (src/core.rs:266-272): exit
when `count == threshold`, otherwise consume the next message's byte count;
`none` means the message supply ran out before the test ever held (the
`recv` would block). -/
def aggLoop (t : Nat) : Nat → List Nat → Option Nat
  | count, [] => if count = t then some count else none
  | count, b :: rest => if count = t then some count else aggLoop t (count + b) rest

/-- C10. `threshold = ct_len - bytes_on_disk` is unchecked `u64`
subtraction. Under the precondition `bytes_on_disk ≤ ct_len` it does not
wrap — it equals the exact difference — and the receive loop's exit test
`count == threshold` is reachable: delivering exactly the missing bytes ends
the loop with `count = threshold`. If the precondition fails, the
subtraction wraps to `2 ^ 64 - (bytes_on_disk - ct_len)`, which exceeds
`ct_len`. -/
theorem threshold_no_underflow (ct bod : Nat)
    (hct : ct < 2 ^ 64) (hbod : bod < 2 ^ 64) :
    (bod ≤ ct →
      threshold ct (some bod) = ct - bod
      ∧ aggLoop (threshold ct (some bod)) 0 [ct - bod] = some (ct - bod))
    ∧ (ct < bod →
      threshold ct (some bod) = 2 ^ 64 - (bod - ct)
      ∧ ct < threshold ct (some bod)) := by
  constructor
  · intro h
    have heq : threshold ct (some bod) = ct - bod := by
      unfold threshold u64Sub
      simp only [Option.getD_some]
      have h1 : ct + 2 ^ 64 - bod = (ct - bod) + 2 ^ 64 := by omega
      rw [h1, Nat.add_mod_right]
      exact Nat.mod_eq_of_lt (by omega)
    refine ⟨heq, ?_⟩
    rw [heq]
    by_cases h0 : ct - bod = 0
    · simp [aggLoop, h0]
    · unfold aggLoop
      rw [if_neg (by omega)]
      unfold aggLoop
      rw [if_pos (by omega)]
      simp
  · intro h
    have heq : threshold ct (some bod) = 2 ^ 64 - (bod - ct) := by
      unfold threshold u64Sub
      simp only [Option.getD_some]
      have h1 : ct + 2 ^ 64 - bod = 2 ^ 64 - (bod - ct) := by omega
      rw [h1]
      exact Nat.mod_eq_of_lt (by omega)
    exact ⟨heq, by rw [heq]; omega⟩

/-- C10 (witness). For `ct_len = 1000` and `bytes_on_disk = 300` the
threshold is exactly `700` and a run delivering 700 bytes exits the loop. -/
theorem threshold_no_underflow_witness :
    threshold 1000 (some 300) = 700
    ∧ aggLoop (threshold 1000 (some 300)) 0 [700] = some 700 := by
  have h := (threshold_no_underflow 1000 300 (by norm_num) (by norm_num)).1
    (by norm_num)
  simpa using h

end Duma
